import Mathlib

/-!
Verification of the knowledge-graph core of the jemanote PWA.

The development shallowly embeds, in Lean, the graph indexer
(GraphIndexer in src/components/timeline/TimelineView.tsx), the
node-classification mapping of GraphView (src/components/graph/GraphView.tsx)
and the force-simulation worker (public/graph-worker.js).

Modelling conventions:
  - JS strings are Lean String values; JS character indices are counted in
    characters (the JS engine counts UTF-16 units; on the inputs considered
    here the two coincide, and only order and equality of indices matter).
  - JS Map objects are modelled as functions to Option with last-write-wins
    update, which matches Map.set and Map.get observationally.
  - The two global-flag regexes of GraphIndexer (wikilinkRegex, mdLinkRegex)
    carry a mutable lastIndex between exec calls.  They are modelled by an
    explicit GIState record threaded through extraction, with exec returning
    the new lastIndex and resetting it to 0 on a failed match, exactly as the
    JS exec does.  The regexes themselves are deterministic (their character
    classes exclude the closing delimiters), so they are embedded as direct
    scanners over the character list; the scan loops carry a fuel argument
    bounded below by the content length plus one, which the progress lemmas
    below show is never exhausted for the uses made here.
  - JS numbers in the worker are modelled as real numbers.  The expression
    (Math.sqrt d or-else 1) uses the JS falsiness of 0, hence it is modelled
    as: if the square root is 0 then 1 else the square root.
  - Code that throws a TypeError (property access on undefined) is modelled
    in the Except monad.
-/

namespace Jemanote

/-- External input note, as consumed by GraphIndexer: id, title, content. -/
structure Note where
  id : String
  title : String
  content : String
deriving DecidableEq

/-- Edge kinds of GraphIndexer (the type field of GraphEdge). -/
inductive LinkType where
  | wikilink
  | mdlink
  | backlink
deriving DecidableEq

/-- A raw extracted link: trimmed target text plus its syntactic kind,
as returned by GraphIndexer.extractLinks. -/
structure Link where
  target : String
  type : LinkType
deriving DecidableEq

/-- GraphEdge of the indexer.  The JS fields named from and to are called
from_ and to_ here because both are reserved tokens in Lean. -/
structure GraphEdge where
  from_ : String
  to_ : String
  type : LinkType
deriving DecidableEq

/-- GraphNode of the indexer.  The JS size field is a real number
(max 1 (log (degree+1) * 6)); being a fixed function of degree it is kept
out of the record (see nodeSize below) so that the record stays decidable. -/
structure GraphNode where
  id : String
  title : String
  tags : List String
  degree : Nat
  color : String
deriving DecidableEq

/-- Result of GraphIndexer.indexGraph. -/
structure GraphData where
  nodes : List GraphNode
  edges : List GraphEdge
deriving DecidableEq

/-- The derived node size of the source: Math.max(1, Math.log(degree+1)*6). -/
noncomputable def nodeSize (degree : Nat) : ℝ :=
  max 1 (Real.log (degree + 1) * 6)

/-! ### JS string primitives

The JS string operations used by the indexer are embedded as structural
functions on the character list of a String (the iterator-based functions
of the core library are observationally the same but are compiled by
well-founded recursion, which blocks kernel evaluation of concrete
witnesses). -/

/-- Lexicographic character-list comparison: the JS less-than on strings
(JS compares UTF-16 units; on the inputs considered the unit order and the
character order agree). -/
def charsLt : List Char → List Char → Bool
  | [], [] => false
  | [], _ :: _ => true
  | _ :: _, [] => false
  | a :: as, b :: bs => if a < b then true else if b < a then false else charsLt as bs

/-- JS string less-than. -/
def jsStrLt (a b : String) : Bool :=
  charsLt a.data b.data

/-- JS toLowerCase (ASCII case mapping, which covers the inputs here). -/
def jsToLower (s : String) : String :=
  String.mk (s.data.map Char.toLower)

/-- JS trim: whitespace stripped from both ends. -/
def jsTrim (s : String) : String :=
  String.mk (((s.data.dropWhile Char.isWhitespace).reverse.dropWhile Char.isWhitespace).reverse)

/-- JS startsWith. -/
def jsStartsWith (s pre : String) : Bool :=
  pre.data.isPrefixOf s.data

/-- JS endsWith. -/
def jsEndsWith (s suf : String) : Bool :=
  suf.data.reverse.isPrefixOf s.data.reverse

/-- Drop n characters from the front. -/
def jsDropLeft (s : String) (n : Nat) : String :=
  String.mk (s.data.drop n)

/-- Drop n characters from the end. -/
def jsDropRight (s : String) (n : Nat) : String :=
  String.mk (s.data.take (s.data.length - n))

/-- JS split on a single-character separator (never returns an empty
list; a trailing separator yields a trailing empty segment). -/
def splitOnCharGo (sep : Char) (cur : List Char) : List Char → List String
  | [] => [String.mk cur.reverse]
  | c :: rest =>
    if c = sep then String.mk cur.reverse :: splitOnCharGo sep [] rest
    else splitOnCharGo sep (c :: cur) rest

/-- JS String.split with a one-character separator. -/
def jsSplitOn (sep : Char) (s : String) : List String :=
  splitOnCharGo sep [] s.data

/-! ### Wikilink matching

The wikilink regex of the source is, written out,
(open open (capture of one or more chars none of close, pipe, hash)
 (optional hash section) (optional pipe alias) close close) with the global
flag.  All character classes exclude the delimiters that follow them, so
matching is deterministic and is embedded as a scanner. -/

/-- Characters allowed in the wikilink target capture group. -/
def isWikiTargetChar (c : Char) : Bool :=
  c != ']' && c != '|' && c != '#'

/-- Characters allowed in the optional section part (after the hash). -/
def isWikiSectionChar (c : Char) : Bool :=
  c != ']' && c != '|'

/-- Expect the two closing brackets; return the capture and the rest. -/
def wikiClose (cap : List Char) : List Char → Option (List Char × List Char)
  | ']' :: ']' :: rest => some (cap, rest)
  | _ => none

/-- Optional alias part: a pipe followed by one or more non-close chars. -/
def wikiAlias (cap : List Char) : List Char → Option (List Char × List Char)
  | '|' :: r =>
    if (r.takeWhile (fun c => c != ']')).isEmpty then none
    else wikiClose cap (r.dropWhile (fun c => c != ']'))
  | r => wikiClose cap r

/-- Optional section part: a hash followed by one or more section chars. -/
def wikiSection (cap : List Char) : List Char → Option (List Char × List Char)
  | '#' :: r =>
    if (r.takeWhile isWikiSectionChar).isEmpty then none
    else wikiAlias cap (r.dropWhile isWikiSectionChar)
  | r => wikiAlias cap r

/-- Try to match the whole wikilink pattern at the head of the list;
on success return the capture group and the characters after the match. -/
def tryWikiAt : List Char → Option (List Char × List Char)
  | '[' :: '[' :: r =>
    if (r.takeWhile isWikiTargetChar).isEmpty then none
    else wikiSection (r.takeWhile isWikiTargetChar) (r.dropWhile isWikiTargetChar)
  | _ => none

/-! ### Markdown link matching

The markdown regex is (open-bracket, lazy dot-star, close-bracket,
open-paren, capture of one or more non-close-paren chars, close-paren),
global.  The lazy dot-star scans forward (the dot does not match a line
break) to the first close-bracket at which the parenthesised part parses. -/

/-- Parse the parenthesised part: open paren, one or more non-close-paren
characters (the capture), close paren. -/
def mdParen : List Char → Option (List Char × List Char)
  | '(' :: r =>
    if (r.takeWhile (fun c => c != ')')).isEmpty then none
    else
      match r.dropWhile (fun c => c != ')') with
      | ')' :: rest => some (r.takeWhile (fun c => c != ')'), rest)
      | _ => none
  | _ => none

/-- Scan after the opening bracket: the lazy dot-star consumes characters
(other than line breaks) up to the first close-bracket whose suffix parses
as the parenthesised part. -/
def mdScan : List Char → Option (List Char × List Char)
  | [] => none
  | c :: rest =>
    if c = ']' then
      match mdParen rest with
      | some r => some r
      | none => mdScan rest
    else if c = '\n' || c = '\r' then none
    else mdScan rest

/-- Try to match the whole markdown-link pattern at the head of the list. -/
def tryMdAt : List Char → Option (List Char × List Char)
  | '[' :: rest => mdScan rest
  | _ => none

/-! ### Global-regex exec and the extraction loops -/

/-- Leftmost-match search from position p, generic in the single-position
matcher: this is the search a global-flag exec performs starting at
lastIndex.  On success it returns the capture and the index just after the
matched text (the new lastIndex). -/
def searchFrom (tryAt : List Char → Option (List Char × List Char)) :
    List Char → Nat → Option (String × Nat)
  | [], _ => none
  | c :: rest, p =>
    match tryAt (c :: rest) with
    | some (cap, after) => some (String.mk cap, p + ((c :: rest).length - after.length))
    | none => searchFrom tryAt rest (p + 1)

/-- One exec call of a global regex with current lastIndex i. -/
def rexec (tryAt : List Char → Option (List Char × List Char))
    (cs : List Char) (i : Nat) : Option (String × Nat) :=
  searchFrom tryAt (cs.drop i) i

/-- The while-exec-until-null loop of extractLinks: collects the raw
captures in order and returns the final lastIndex of the regex.  A failed
exec resets lastIndex to 0, exactly as in JS.  The fuel argument only
serves termination; rexec strictly increases the position, so fuel at least
(length cs + 1) is never exhausted (lemma regexLoop_resets below needs
nothing more). -/
def regexLoop (tryAt : List Char → Option (List Char × List Char))
    (cs : List Char) : Nat → Nat → List String × Nat
  | 0, li => ([], li)
  | fuel + 1, li =>
    match rexec tryAt cs li with
    | none => ([], 0)
    | some (t, next) =>
      let r := regexLoop tryAt cs fuel next
      (t :: r.1, r.2)

/-- The mutable lastIndex fields of the two shared global regexes of
GraphIndexer (wikilinkRegex and mdLinkRegex). -/
structure GIState where
  wLast : Nat
  mdLast : Nat
deriving DecidableEq

/-- The lastIndex state of a freshly constructed GraphIndexer. -/
def initialState : GIState := ⟨0, 0⟩

/-- GraphIndexer.extractLinks, with the regex state made explicit.
The wikilink loop starts from the current wikilink lastIndex (the source
does not reset it); the markdown loop is explicitly reset to 0 first
(mdLinkRegex.lastIndex = 0 in the source).  Each match is trimmed and
dropped when empty; markdown targets starting with http or https schemes
are dropped. -/
def extractLinksS (s : GIState) (content : String) : GIState × List Link :=
  let cs := content.data
  let w := regexLoop tryWikiAt cs (cs.length + 1) s.wLast
  let m := regexLoop tryMdAt cs (cs.length + 1) 0
  let wikiLinks := w.1.filterMap (fun raw =>
    let t := jsTrim raw
    if t.data.isEmpty then none else some (Link.mk t LinkType.wikilink))
  let mdLinks := m.1.filterMap (fun raw =>
    let t := jsTrim raw
    if t.data.isEmpty || jsStartsWith t "http://" || jsStartsWith t "https://" then none
    else some (Link.mk t LinkType.mdlink))
  (⟨w.2, m.2⟩, wikiLinks ++ mdLinks)

/-! ### Tag extraction -/

/-- Word characters of the tag regex: ASCII letters, digits, underscore,
hyphen. -/
def isTagChar (c : Char) : Bool :=
  c.isAlphanum || c = '_' || c = '-'

/-- Single-pass scanner for all matches of (hash followed by one or more
tag chars), as String.match with the global tag regex finds them: left to
right, non-overlapping, advancing one position on a hash with no run.
The first argument is the run in progress (reversed) after a hash, or
none while outside a candidate match. -/
def tagScanGo : Option (List Char) → List Char → List String
  | none, [] => []
  | none, c :: rest =>
    if c = '#' then tagScanGo (some []) rest else tagScanGo none rest
  | some acc, [] => if acc.isEmpty then [] else [String.mk acc.reverse]
  | some acc, c :: rest =>
    if isTagChar c then tagScanGo (some (c :: acc)) rest
    else if acc.isEmpty then
      if c = '#' then tagScanGo (some []) rest else tagScanGo none rest
    else
      if c = '#' then String.mk acc.reverse :: tagScanGo (some []) rest
      else String.mk acc.reverse :: tagScanGo none rest

/-- All tag texts of a content string, without the hash marker. -/
def tagScan (cs : List Char) : List String :=
  tagScanGo none cs

/-- Deduplication keeping first occurrences, as the JS Set spread does. -/
def dedupFirst (seen : List String) : List String → List String
  | [] => []
  | t :: rest => if t ∈ seen then dedupFirst seen rest else t :: dedupFirst (t :: seen) rest

/-- GraphIndexer.extractTags. -/
def extractTags (content : String) : List String :=
  dedupFirst [] (tagScan content.data)

/-! ### Lookup maps and link resolution -/

/-- The titleMap of indexGraph: lowercased title to note id, built by
forEach over the notes with Map.set (last write wins). -/
def buildTitleMap (notes : List Note) : String → Option String :=
  notes.foldl (fun m n => fun k => if k = jsToLower n.title then some n.id else m k)
    (fun _ => none)

/-- The noteMap of indexGraph: note id to note, same construction. -/
def buildNoteMap (notes : List Note) : String → Option Note :=
  notes.foldl (fun m n => fun k => if k = n.id then some n else m k)
    (fun _ => none)

/-- Strip a trailing md extension, as the first replace of case 3 does. -/
def stripMdExt (t : String) : String :=
  if jsEndsWith t ".md" then jsDropRight t 3 else t

/-- Strip a leading dot-slash, as the second replace of case 3 does. -/
def stripDotSlash (t : String) : String :=
  if jsStartsWith t "./" then jsDropLeft t 2 else t

/-- The cleaned target of resolveLink case 3. -/
def cleanedTarget (t : String) : String :=
  stripDotSlash (stripMdExt t)

/-- The basename of resolveLink case 4: cleaned.split on slash, then pop,
with the JS or-else falling back to the whole cleaned string when the
popped segment is empty (the empty string is falsy). -/
def basenameOf (cleaned : String) : String :=
  match (jsSplitOn '/' cleaned).getLast? with
  | some s => if s.data.isEmpty then cleaned else s
  | none => cleaned

/-- GraphIndexer.resolveLink, case by case as in the source (the local
variables target, cleaned and basename of the source are written out as
the expressions they name). -/
def resolveLink (link : Link) (titleMap : String → Option String)
    (noteMap : String → Option Note) : Option String :=
  if (noteMap link.target).isSome then
    some link.target
  else
    match titleMap (jsToLower link.target) with
    | some i => some i
    | none =>
      match titleMap (jsToLower (cleanedTarget link.target)) with
      | some i => some i
      | none =>
        match titleMap (jsToLower (basenameOf (cleanedTarget link.target))) with
        | some i => some i
        | none => none

/-! ### Edge construction, degrees, deduplication -/

/-- Functional update of the degree map: Map.set k (get k + 1). -/
def bump (d : String → Nat) (k : String) : String → Nat :=
  fun x => if x = k then d k + 1 else d x

/-- The body of the inner forEach of indexGraph for one extracted link:
resolve it; when it resolves to a target different from the containing
note, push the forward edge and the synthetic backlink edge and increment
both degree counters. -/
def processLink (noteId : String) (tm : String → Option String)
    (nm : String → Option Note) (acc : List GraphEdge × (String → Nat))
    (link : Link) : List GraphEdge × (String → Nat) :=
  match resolveLink link tm nm with
  | some targetId =>
    if targetId ≠ noteId then
      (acc.1 ++ [⟨noteId, targetId, link.type⟩, ⟨targetId, noteId, LinkType.backlink⟩],
       bump (bump acc.2 noteId) targetId)
    else acc
  | none => acc

/-- All links of one note, in order. -/
def processLinks (noteId : String) (links : List Link)
    (tm : String → Option String) (nm : String → Option Note)
    (acc : List GraphEdge × (String → Nat)) : List GraphEdge × (String → Nat) :=
  links.foldl (processLink noteId tm nm) acc

/-- One step of the outer forEach of indexGraph: extract the links of the
note (threading the shared regex state) and process them. -/
def indexStep (tm : String → Option String) (nm : String → Option Note)
    (st : GIState × List GraphEdge × (String → Nat)) (note : Note) :
    GIState × List GraphEdge × (String → Nat) :=
  let e := extractLinksS st.1 note.content
  let pr := processLinks note.id e.2 tm nm (st.2.1, st.2.2)
  (e.1, pr.1, pr.2)

/-- The edge-and-degree pass of indexGraph over all notes. -/
def indexEdgesDegrees (notes : List Note) (s : GIState) :
    GIState × List GraphEdge × (String → Nat) :=
  notes.foldl (indexStep (buildTitleMap notes) (buildNoteMap notes))
    (s, [], fun _ => 0)

/-- GraphIndexer.getColorForNode (the tags argument of the source is
accepted but, as there, not consulted). -/
def getColorForNode (_tags : List String) (degree : Nat) : String :=
  if degree ≥ 10 then "#5a63e9"
  else if degree ≥ 5 then "#8B92FF"
  else if degree ≥ 2 then "#A8AEFF"
  else if degree = 0 then "#6B7280"
  else "#9CA3AF"

/-- The canonical key of deduplicateEdges: the two endpoint ids joined by
an arrow, smaller id (string order) first. -/
def edgeKey (e : GraphEdge) : String :=
  if jsStrLt e.from_ e.to_ then e.from_ ++ "->" ++ e.to_ else e.to_ ++ "->" ++ e.from_

/-- One step of deduplicateEdges: keep the edge only when its key is new. -/
def dedupStep (acc : List String × List GraphEdge) (edge : GraphEdge) :
    List String × List GraphEdge :=
  if edgeKey edge ∈ acc.1 then acc else (acc.1 ++ [edgeKey edge], acc.2 ++ [edge])

/-- GraphIndexer.deduplicateEdges: first edge per unordered key survives. -/
def deduplicateEdges (edges : List GraphEdge) : List GraphEdge :=
  (edges.foldl dedupStep ([], [])).2

/-- The node built for one note by indexGraph (minus the derived size,
see nodeSize). -/
def buildNode (deg : String → Nat) (note : Note) : GraphNode :=
  let tags := extractTags note.content
  let degree := deg note.id
  ⟨note.id, note.title, tags, degree, getColorForNode tags degree⟩

/-- GraphIndexer.indexGraph with the shared regex state made explicit:
returns the state left in the indexer object together with the GraphData. -/
def indexGraphS (s : GIState) (notes : List Note) : GIState × GraphData :=
  let r := indexEdgesDegrees notes s
  (r.1, ⟨notes.map (buildNode r.2.2), deduplicateEdges r.2.1⟩)

/-! ### Auxiliary queries -/

/-- GraphIndexer.getBacklinks: sources of non-backlink edges into the note. -/
def getBacklinks (noteId : String) (edges : List GraphEdge) : List String :=
  (edges.filter (fun e => decide (e.to_ = noteId ∧ e.type ≠ LinkType.backlink))).map
    GraphEdge.from_

/-- A breadth-first-search queue entry of shortestPath: a node id and the
path from the start to it, inclusive. -/
structure QueueEntry where
  id : String
  path : List String
deriving DecidableEq

/-- The adjacency map of shortestPath, built once per call from the edge
list: directed, in edge order. -/
def buildAdjacency (edges : List GraphEdge) : String → List String :=
  edges.foldl (fun adj e => fun k => if k = e.from_ then adj k ++ [e.to_] else adj k)
    (fun _ => [])

/-- Enqueue one neighbor unless already visited, marking it visited. -/
def pushStep (path : List String) (acc : List QueueEntry × List String)
    (n : String) : List QueueEntry × List String :=
  if n ∈ acc.2 then acc else (acc.1 ++ [⟨n, path ++ [n]⟩], acc.2 ++ [n])

/-- The BFS while loop of shortestPath.  The fuel argument only serves
termination: every dequeued entry was enqueued, entries are enqueued only
for ids newly inserted into visited, and every such id other than the
start is the head of some edge, so the loop runs at most length edges + 2
iterations and the fuel chosen in shortestPath is never exhausted. -/
def bfsLoop (adj : String → List String) (toId : String) :
    Nat → List QueueEntry → List String → Option (List String)
  | 0, _, _ => none
  | _ + 1, [], _ => none
  | fuel + 1, current :: rest, visited =>
    if current.id = toId then some current.path
    else
      let next := (adj current.id).foldl (pushStep current.path) (rest, visited)
      bfsLoop adj toId fuel next.1 next.2

/-- GraphIndexer.shortestPath. -/
def shortestPath (fromId toId : String) (edges : List GraphEdge) :
    Option (List String) :=
  bfsLoop (buildAdjacency edges) toId (edges.length + 2) [⟨fromId, [fromId]⟩] [fromId]

/-! ### Node classification (GraphView.loadGraph) -/

/-- The type mapping of the nodeDataArray built in GraphView.loadGraph:
(node.degree or-else 0) at least 3 gives main, at least 1 gives secondary,
otherwise isolated.  The degree field is optional in the GraphNode
interface, hence the Option argument. -/
def classifyNode (degree : Option Nat) : String :=
  if degree.getD 0 ≥ 3 then "main"
  else if degree.getD 0 ≥ 1 then "secondary"
  else "isolated"

/-- The classification thresholds as the specification words them: main at
degree at least 2, secondary at exactly 1, isolated at 0.  The in-code
legend of GraphView states the same thresholds (2 or more links for main,
1 for secondary, 0 for isolated). -/
def claimClassification (degree : Nat) : String :=
  if degree ≥ 2 then "main"
  else if degree = 1 then "secondary"
  else "isolated"

/-! ### The resolution rules as the specification words them

For the refinement claim about resolveLink, the rules are restated as a
first-match rule list following the specification text, to be compared
with the definition taken from the source. -/

/-- Rule 1: the target string already equals some note id. -/
def ruleIdMatch (nm : String → Option Note) (target : String) : Option String :=
  if (nm target).isSome then some target else none

/-- Rule 2: the lowercased argument equals some lowercased title. -/
def ruleTitleMatch (tm : String → Option String) (t : String) : Option String :=
  tm (jsToLower t)

/-- The basename exactly as the claim words it: the segment after the
last slash of the cleaned target (possibly the empty segment when the
cleaned target ends in a slash). -/
def rawBasename (cleaned : String) : String :=
  ((jsSplitOn '/' cleaned).getLast?).getD cleaned

/-- Link resolution as the claim states it: the four rules tried in order,
first match wins, with rule 4 using the raw last segment. -/
def resolveLinkClaim (link : Link) (tm : String → Option String)
    (nm : String → Option Note) : Option String :=
  ruleIdMatch nm link.target <|>
    ruleTitleMatch tm link.target <|>
      ruleTitleMatch tm (cleanedTarget link.target) <|>
        ruleTitleMatch tm (rawBasename (cleanedTarget link.target))

/-- Link resolution as a first-match rule list, amended only in rule 4:
the basename falls back to the whole cleaned target when the last segment
is empty, as the or-else in the source does. -/
def resolveLinkAmended (link : Link) (tm : String → Option String)
    (nm : String → Option Note) : Option String :=
  ruleIdMatch nm link.target <|>
    ruleTitleMatch tm link.target <|>
      ruleTitleMatch tm (cleanedTarget link.target) <|>
        ruleTitleMatch tm (basenameOf (cleanedTarget link.target))

/-! ### The force-simulation worker (public/graph-worker.js)

JS numbers are modelled as real numbers; Math.random is modelled by an
ambient stream of reals passed as a parameter; a thrown TypeError is
modelled in the Except monad.  Only the synchronous part of message
handling is modelled: the init handler runs initGraph and then
startSimulation, whose loop body executes its first iteration
synchronously inside the message handler before yielding to the timer. -/

/-- The worker parameter record. -/
structure SimParams where
  attraction : ℝ
  repulsion : ℝ
  damping : ℝ
  maxSpeed : ℝ
  centerForce : ℝ
  linkDistance : ℝ

/-- The module-level defaults of the worker. -/
noncomputable def defaultParams : SimParams :=
  ⟨0.01, 300, 0.8, 10, 0.02, 50⟩

/-- A parameter record of optional fields, as sent by init and
updateParams. -/
structure PartialParams where
  attraction : Option ℝ
  repulsion : Option ℝ
  damping : Option ℝ
  maxSpeed : Option ℝ
  centerForce : Option ℝ
  linkDistance : Option ℝ

/-- The JS object-spread merge of a record of optional fields. -/
def mergeParams (p : SimParams) (q : PartialParams) : SimParams :=
  ⟨q.attraction.getD p.attraction, q.repulsion.getD p.repulsion,
   q.damping.getD p.damping, q.maxSpeed.getD p.maxSpeed,
   q.centerForce.getD p.centerForce, q.linkDistance.getD p.linkDistance⟩

/-- A simulation node of the worker (entry of the nodes map). -/
structure SimNode where
  id : String
  x : ℝ
  y : ℝ
  vx : ℝ
  vy : ℝ
  mass : ℝ
  type : String

/-- An edge as the worker receives it. -/
structure WEdge where
  source : String
  target : String
deriving DecidableEq

/-- A node record of the init and updateNodes payloads (the worker reads
only the id and type fields). -/
structure InitNodeData where
  id : String
  type : String
deriving DecidableEq

/-- The module-level mutable state of the worker.  The edges variable is
an Option because the assignment edges = data.edges stores undefined when
the field is missing from the payload. -/
structure WorkerState where
  nodes : List SimNode
  edges : Option (List WEdge)
  params : SimParams
  isRunning : Bool

/-- The init payload; each field may be missing. -/
structure InitData where
  nodes : Option (List InitNodeData)
  edges : Option (List WEdge)
  params : Option PartialParams

/-- Mass per classification: main 2, secondary 1.5, otherwise 1. -/
noncomputable def massFor (t : String) : ℝ :=
  if t = "main" then 2 else if t = "secondary" then 1.5 else 1

/-- One freshly initialised node: random angle in the full circle, random
radius in the ring from 200 to 300, zero velocity. -/
noncomputable def initSimNode (r1 r2 : ℝ) (nd : InitNodeData) : SimNode :=
  let angle := r1 * (2 * Real.pi)
  let radius := 200 + r2 * 100
  ⟨nd.id, Real.cos angle * radius, Real.sin angle * radius, 0, 0,
    massFor nd.type, nd.type⟩

/-- The forEach of initGraph over the node payload, consuming two random
draws per node. -/
noncomputable def initNodes (rand : Nat → ℝ) (nds : List InitNodeData) : List SimNode :=
  nds.mapIdx (fun i nd => initSimNode (rand (2 * i)) (rand (2 * i + 1)) nd)

/-- The worker initGraph.  It clears the node map, stores data.edges as is
(possibly undefined), merges optional params, then iterates
data.nodes.forEach: when the nodes field is missing that property access
throws a TypeError, modelled as the error case. -/
noncomputable def initGraph (st : WorkerState) (rand : Nat → ℝ) (data : InitData) :
    Except String WorkerState :=
  let base : WorkerState := { st with nodes := [], edges := data.edges }
  let base := match data.params with
    | some q => { base with params := mergeParams base.params q }
    | none => base
  match data.nodes with
  | none => Except.error "TypeError: data.nodes is undefined"
  | some nds => Except.ok { base with nodes := initNodes rand nds }

/-- The Euclidean distance computed in applyRepulsion for a pair. -/
noncomputable def euclidDist (a b : SimNode) : ℝ :=
  Real.sqrt ((b.x - a.x) * (b.x - a.x) + (b.y - a.y) * (b.y - a.y))

/-- The distance the source actually divides by:
Math.sqrt(dx*dx + dy*dy) or-else 1.  The or-else replaces the value 1 for
a falsy square root, that is exactly for the value 0; any other value,
however small, is kept. -/
noncomputable def usedDistance (a b : SimNode) : ℝ :=
  if euclidDist a b = 0 then 1 else euclidDist a b

/-- The repulsion force magnitude: repulsion over the square of the used
distance. -/
noncomputable def repulsionForce (p : SimParams) (a b : SimNode) : ℝ :=
  p.repulsion / (usedDistance a b * usedDistance a b)

/-- The inner body of the applyRepulsion double loop for one pair. -/
noncomputable def applyRepulsionPair (p : SimParams) (a b : SimNode) :
    SimNode × SimNode :=
  let dx := b.x - a.x
  let dy := b.y - a.y
  let distance := usedDistance a b
  let force := repulsionForce p a b
  let fx := dx / distance * force
  let fy := dy / distance * force
  ({ a with vx := a.vx - fx / a.mass, vy := a.vy - fy / a.mass },
   { b with vx := b.vx + fx / b.mass, vy := b.vy + fy / b.mass })

/-- The inner loop of applyRepulsion: pair the fixed node a with every
later node, accumulating the updates of a. -/
noncomputable def repulseOne (p : SimParams) (a : SimNode) :
    List SimNode → SimNode × List SimNode
  | [] => (a, [])
  | b :: rest =>
    let ab := applyRepulsionPair p a b
    let r := repulseOne p ab.1 rest
    (r.1, ab.2 :: r.2)

/-- The applyRepulsion double loop over the node array. -/
noncomputable def applyRepulsion (p : SimParams) : List SimNode → List SimNode
  | [] => []
  | a :: rest =>
    let r := repulseOne p a rest
    r.1 :: applyRepulsion p r.2
termination_by ns => ns.length
decreasing_by
  have h : ∀ (a : SimNode) (l : List SimNode), ((repulseOne p a l).2).length = l.length := by
    intro a l
    induction l generalizing a with
    | nil => rfl
    | cons b rest ih => simp [repulseOne, ih]
  simp only [List.length_cons]
  rw [h]
  omega

/-- Replace the node with the given id (the model of mutating the object
held in the nodes map). -/
def updNodeById (ns : List SimNode) (m : SimNode) : List SimNode :=
  ns.map (fun n => if n.id = m.id then m else n)

/-- The applyAttraction body for one edge.  Missing endpoints are skipped.
On a self-referential edge both coordinate differences vanish, so the
force components are zero and the two writes are no-ops, in the source as
well as here. -/
noncomputable def attractStep (p : SimParams) (ns : List SimNode) (e : WEdge) :
    List SimNode :=
  match ns.find? (fun n => n.id == e.source), ns.find? (fun n => n.id == e.target) with
  | some s, some t =>
    let dx := t.x - s.x
    let dy := t.y - s.y
    let d0 := Real.sqrt (dx * dx + dy * dy)
    let distance := if d0 = 0 then 1 else d0
    let displacement := distance - p.linkDistance
    let force := displacement * p.attraction
    let fx := dx / distance * force
    let fy := dy / distance * force
    let ns1 := updNodeById ns { s with vx := s.vx + fx / s.mass, vy := s.vy + fy / s.mass }
    updNodeById ns1 { t with vx := t.vx - fx / t.mass, vy := t.vy - fy / t.mass }
  | _, _ => ns

/-- applyAttraction iterates edges.forEach; when the edges variable holds
undefined the forEach access throws, modelled as the error case. -/
noncomputable def applyAttractionE (p : SimParams) (ns : List SimNode)
    (edges : Option (List WEdge)) : Except String (List SimNode) :=
  match edges with
  | none => Except.error "TypeError: edges is undefined"
  | some es => Except.ok (es.foldl (attractStep p) ns)

/-- applyCenterForce for one node. -/
noncomputable def centerNode (p : SimParams) (n : SimNode) : SimNode :=
  { n with vx := n.vx - n.x * p.centerForce, vy := n.vy - n.y * p.centerForce }

/-- updatePositions for one node: damping, speed clamp, integration. -/
noncomputable def integrateNode (p : SimParams) (n : SimNode) : SimNode :=
  let vx := n.vx * p.damping
  let vy := n.vy * p.damping
  let speed := Real.sqrt (vx * vx + vy * vy)
  let vx2 := if speed > p.maxSpeed then vx / speed * p.maxSpeed else vx
  let vy2 := if speed > p.maxSpeed then vy / speed * p.maxSpeed else vy
  { n with vx := vx2, vy := vy2, x := n.x + vx2, y := n.y + vy2 }

/-- One simulation tick: repulsion, attraction, centering, integration.
The attraction pass is the one that dereferences the edges variable. -/
noncomputable def simulationStepE (st : WorkerState) : Except String WorkerState :=
  let ns1 := applyRepulsion st.params st.nodes
  match applyAttractionE st.params ns1 st.edges with
  | Except.error e => Except.error e
  | Except.ok ns2 =>
    Except.ok { st with nodes := (ns2.map (centerNode st.params)).map (integrateNode st.params) }

/-- The positions message emitted after a tick. -/
noncomputable def tickPositions (st : WorkerState) : List (String × ℝ × ℝ) :=
  st.nodes.map (fun n => (n.id, n.x, n.y))

/-- startSimulation: an immediate return when already running, otherwise
the flag is set and the loop body runs its first iteration synchronously
(later iterations are rescheduled through the timer and are outside the
synchronous model). -/
noncomputable def startSimulationE (st : WorkerState) : Except String WorkerState :=
  if st.isRunning then Except.ok st
  else simulationStepE { st with isRunning := true }

/-- The inbound worker messages. -/
inductive WorkerMsg where
  | init (data : InitData)
  | start
  | stop
  | updateParams (q : PartialParams)
  | updateNodes (l : List InitNodeData)
  | unknown (t : String)

/-- The updateNodes handler: update mass and type in place by id. -/
noncomputable def updateNodesData (ns : List SimNode) (l : List InitNodeData) :
    List SimNode :=
  l.foldl (fun ns nd =>
    ns.map (fun n => if n.id = nd.id then
      { n with mass := massFor nd.type, type := nd.type } else n)) ns

/-- The synchronous part of the self.onmessage dispatcher.  Unknown types
are logged and ignored. -/
noncomputable def handleMessage (st : WorkerState) (rand : Nat → ℝ) :
    WorkerMsg → Except String WorkerState
  | WorkerMsg.init d =>
    match initGraph st rand d with
    | Except.error e => Except.error e
    | Except.ok st1 => startSimulationE st1
  | WorkerMsg.start => startSimulationE st
  | WorkerMsg.stop => Except.ok { st with isRunning := false }
  | WorkerMsg.updateParams q => Except.ok { st with params := mergeParams st.params q }
  | WorkerMsg.updateNodes l => Except.ok { st with nodes := updateNodesData st.nodes l }
  | WorkerMsg.unknown _ => Except.ok st

/-! ### Concrete inputs used by counterexamples and witnesses -/

/-- Two notes sharing the id a, plus the note b linked from the first:
note lists with repeated ids break the degree-sum equation because the
repeated node is emitted twice, each time carrying the shared counter. -/
def dupIdNotes : List Note :=
  [⟨"a", "A", "[[B]]"⟩, ⟨"a", "A2", ""⟩, ⟨"b", "B", ""⟩]

/-- The end-to-end scenario of the specification: Home links to Work and
to itself, Work links back to Home, Isolated links to nothing. -/
def endToEndNotes : List Note :=
  [⟨"1", "Home", "See [[Work]] and [[Home]]"⟩,
   ⟨"2", "Work", "Back to [[Home]]"⟩,
   ⟨"3", "Isolated", "no links"⟩]

/-- A single note whose title is the empty string: the target x-slash then
has an empty last segment, separating the claim wording of rule 4 from
the or-else fallback in the source. -/
def emptyTitleNotes : List Note :=
  [⟨"n1", "", "some content"⟩]

/-- A note linking to itself by title. -/
def selfLinkNotes : List Note :=
  [⟨"a", "A", "[[A]]"⟩]

/-- The three-node chain of the shortest-path claim. -/
def chainEdges : List GraphEdge :=
  [⟨"A", "B", LinkType.wikilink⟩, ⟨"B", "C", LinkType.wikilink⟩]

/-- A node at the origin with unit mass. -/
noncomputable def cexNodeA : SimNode := ⟨"a", 0, 0, 0, 0, 1, "isolated"⟩

/-- A node half a unit to the right of the origin: the pair is at distance
one half, strictly between 0 and 1. -/
noncomputable def cexNodeB : SimNode := ⟨"b", 1 / 2, 0, 0, 0, 1, "isolated"⟩

/-! ### Characterisations used by the theorems -/

/-- The links of a note that resolve to a target different from the note
itself, with their kinds: exactly the links for which processLink records
edges and degree increments. -/
def resolvedPairs (noteId : String) (tm : String → Option String)
    (nm : String → Option Note) (links : List Link) : List (String × LinkType) :=
  links.filterMap (fun link =>
    match resolveLink link tm nm with
    | some t => if t = noteId then none else some (t, link.type)
    | none => none)

/-- The forward edge and synthetic backlink recorded for each resolved
non-self link of a note. -/
def pairEdges (noteId : String) (ps : List (String × LinkType)) : List GraphEdge :=
  ps.flatMap (fun p => [⟨noteId, p.1, p.2⟩, ⟨p.1, noteId, LinkType.backlink⟩])

/-- The degree increments recorded for each resolved non-self link. -/
def bumpPairs (noteId : String) (ps : List (String × LinkType))
    (d : String → Nat) : String → Nat :=
  ps.foldl (fun d p => bump (bump d noteId) p.1) d

/-- One note of the resolved-link count: extract the links (threading the
regex state) and add the number of resolved non-self occurrences. -/
def countStep (tm : String → Option String) (nm : String → Option Note)
    (st : GIState × Nat) (note : Note) : GIState × Nat :=
  let e := extractLinksS st.1 note.content
  (e.1, st.2 + (resolvedPairs note.id tm nm e.2).length)

/-- The number of resolved non-self link occurrences over the whole note
list, threading the same shared regex state as indexGraphS: the quantity
the degree-sum property counts. -/
def resolvedLinkCount (notes : List Note) (s : GIState) : Nat :=
  (notes.foldl (countStep (buildTitleMap notes) (buildNoteMap notes)) (s, 0)).2

/-- The raw edge list shape produced by indexGraph before deduplication:
a sequence of adjacent pairs, each a non-backlink forward edge immediately
followed by an edge with the same unordered key, both without self-loops. -/
inductive Paired : List GraphEdge → Prop where
  | nil : Paired []
  | cons (a b : GraphEdge) (l : List GraphEdge) (hkey : edgeKey b = edgeKey a)
      (hty : a.type ≠ LinkType.backlink) (ha : a.from_ ≠ a.to_) (hb : b.from_ ≠ b.to_)
      (tail : Paired l) : Paired (a :: b :: l)

/-- Two edges with the same unordered endpoint pair. -/
def sameUnorderedPair (e1 e2 : GraphEdge) : Prop :=
  (e1.from_ = e2.from_ ∧ e1.to_ = e2.to_) ∨ (e1.from_ = e2.to_ ∧ e1.to_ = e2.from_)

/-- The invariant of a BFS queue entry: its path leads from the start to
its id along the adjacency, so its id is reachable from the start. -/
def entryOk (adj : String → List String) (fromId : String) (e : QueueEntry) : Prop :=
  e.path.head? = some fromId ∧ e.path.getLast? = some e.id ∧
    e.path.Chain' (fun a b => b ∈ adj a) ∧
    Relation.ReflTransGen (fun a b => b ∈ adj a) fromId e.id

/-! ## Lemmas: the string order -/

theorem dropWhile_len_le (p : Char → Bool) (l : List Char) :
    (l.dropWhile p).length ≤ l.length := by
  induction l with
  | nil => simp
  | cons a l ih =>
    rw [List.dropWhile_cons]
    by_cases hp : p a
    · simp only [hp, if_true]
      exact le_trans ih (Nat.le_succ _)
    · simp [hp]

theorem charsLt_asymm : ∀ {a b : List Char}, charsLt a b = true → charsLt b a = false := by
  intro a
  induction a with
  | nil =>
    intro b h
    cases b with
    | nil => simp [charsLt] at h
    | cons y ys => simp [charsLt]
  | cons x xs ih =>
    intro b h
    cases b with
    | nil => simp [charsLt] at h
    | cons y ys =>
      simp only [charsLt] at h ⊢
      by_cases h1 : x < y
      · have h2 : ¬ y < x := lt_asymm h1
        simp [h1, h2]
      · by_cases h2 : y < x
        · simp [h1, h2] at h
        · simp only [h1, h2, if_false] at h ⊢
          exact ih h

theorem charsLt_eq : ∀ {a b : List Char}, charsLt a b = false → charsLt b a = false → a = b := by
  intro a
  induction a with
  | nil =>
    intro b h1 h2
    cases b with
    | nil => rfl
    | cons y ys => simp [charsLt] at h1
  | cons x xs ih =>
    intro b h1 h2
    cases b with
    | nil => simp [charsLt] at h2
    | cons y ys =>
      simp only [charsLt] at h1 h2
      by_cases hxy : x < y
      · simp [hxy] at h1
      · by_cases hyx : y < x
        · simp [hyx] at h2
        · have hx : x = y := le_antisymm (le_of_not_lt hyx) (le_of_not_lt hxy)
          simp only [hxy, hyx, if_false] at h1 h2
          rw [hx, ih h1 h2]

theorem jsStrLt_asymm {a b : String} (h : jsStrLt a b = true) : jsStrLt b a = false :=
  charsLt_asymm h

theorem jsStrLt_antisymm {a b : String} (h1 : jsStrLt a b = false)
    (h2 : jsStrLt b a = false) : a = b := by
  cases a with
  | mk la =>
    cases b with
    | mk lb => exact congrArg String.mk (charsLt_eq h1 h2)

/-- Two edges over the same unordered endpoint pair produce the same
deduplication key, provided the pair has distinct endpoints. -/
theorem edgeKey_same_pair {e1 e2 : GraphEdge} (hne : e1.from_ ≠ e1.to_)
    (hp : sameUnorderedPair e1 e2) : edgeKey e1 = edgeKey e2 := by
  rcases hp with ⟨h1, h2⟩ | ⟨h1, h2⟩
  · unfold edgeKey
    rw [← h1, ← h2]
  · unfold edgeKey
    rw [← h1, ← h2]
    by_cases hlt : jsStrLt e1.from_ e1.to_ = true
    · have h3 : jsStrLt e1.to_ e1.from_ = false := jsStrLt_asymm hlt
      simp [hlt, h3]
    · have h4 : jsStrLt e1.from_ e1.to_ = false := by
        cases h : jsStrLt e1.from_ e1.to_
        · rfl
        · exact absurd h hlt
      by_cases hlt2 : jsStrLt e1.to_ e1.from_ = true
      · simp [h4, hlt2]
      · have h5 : jsStrLt e1.to_ e1.from_ = false := by
          cases h : jsStrLt e1.to_ e1.from_
          · rfl
          · exact absurd h hlt2
        exact absurd (jsStrLt_antisymm h4 h5) hne

/-! ## Lemmas: deduplication -/

theorem dedup_fold_mem : ∀ (es : List GraphEdge) (seen : List String)
    (out : List GraphEdge) {e : GraphEdge},
    e ∈ (es.foldl dedupStep (seen, out)).2 → e ∈ out ∨ e ∈ es := by
  intro es
  induction es with
  | nil =>
    intro seen out e h
    exact Or.inl h
  | cons a es ih =>
    intro seen out e h
    rw [List.foldl_cons] at h
    by_cases hk : edgeKey a ∈ seen
    · rw [show dedupStep (seen, out) a = (seen, out) by simp [dedupStep, hk]] at h
      rcases ih _ _ h with h1 | h1
      · exact Or.inl h1
      · exact Or.inr (List.mem_cons_of_mem _ h1)
    · rw [show dedupStep (seen, out) a = (seen ++ [edgeKey a], out ++ [a]) by
        simp [dedupStep, hk]] at h
      rcases ih _ _ h with h1 | h1
      · rcases List.mem_append.mp h1 with h2 | h2
        · exact Or.inl h2
        · simp only [List.mem_singleton] at h2
          subst h2
          exact Or.inr (List.mem_cons_self _ _)
      · exact Or.inr (List.mem_cons_of_mem _ h1)

theorem dedup_fold_keys : ∀ (es : List GraphEdge) (seen : List String)
    (out : List GraphEdge),
    (∀ e ∈ out, edgeKey e ∈ seen) →
    out.Pairwise (fun a b => edgeKey a ≠ edgeKey b) →
    (es.foldl dedupStep (seen, out)).2.Pairwise (fun a b => edgeKey a ≠ edgeKey b) := by
  intro es
  induction es with
  | nil =>
    intro seen out _ h2
    exact h2
  | cons a es ih =>
    intro seen out h1 h2
    rw [List.foldl_cons]
    by_cases hk : edgeKey a ∈ seen
    · rw [show dedupStep (seen, out) a = (seen, out) by simp [dedupStep, hk]]
      exact ih seen out h1 h2
    · rw [show dedupStep (seen, out) a = (seen ++ [edgeKey a], out ++ [a]) by
        simp [dedupStep, hk]]
      apply ih
      · intro e he
        rcases List.mem_append.mp he with h3 | h3
        · exact List.mem_append_left _ (h1 e h3)
        · simp only [List.mem_singleton] at h3
          subst h3
          exact List.mem_append_right _ (by simp)
      · rw [List.pairwise_append]
        refine ⟨h2, by simp, ?_⟩
        intro x hx y hy
        simp only [List.mem_singleton] at hy
        subst hy
        intro hEq
        exact hk (hEq ▸ h1 x hx)

theorem paired_append : ∀ {l1 l2 : List GraphEdge},
    Paired l1 → Paired l2 → Paired (l1 ++ l2) := by
  intro l1 l2 h1 h2
  induction h1 with
  | nil => exact h2
  | cons a b l hkey hty ha hb tail ih =>
    exact Paired.cons a b _ hkey hty ha hb ih

theorem paired_no_self {l : List GraphEdge} (h : Paired l) :
    ∀ e ∈ l, e.from_ ≠ e.to_ := by
  induction h with
  | nil => simp
  | cons a b l hkey hty ha hb tail ih =>
    intro e he
    rcases List.mem_cons.mp he with h1 | he2
    · exact h1 ▸ ha
    · rcases List.mem_cons.mp he2 with h1 | h3
      · exact h1 ▸ hb
      · exact ih e h3

theorem dedup_fold_no_backlink : ∀ {l : List GraphEdge}, Paired l →
    ∀ (seen : List String) (out : List GraphEdge),
    (∀ e ∈ out, e.type ≠ LinkType.backlink) →
    ∀ e ∈ (l.foldl dedupStep (seen, out)).2, e.type ≠ LinkType.backlink := by
  intro l hl
  induction hl with
  | nil =>
    intro seen out h e he
    exact h e he
  | cons a b l hkey hty ha hb tail ih =>
    intro seen out h e he
    rw [List.foldl_cons, List.foldl_cons] at he
    by_cases hk : edgeKey a ∈ seen
    · rw [show dedupStep (seen, out) a = (seen, out) by simp [dedupStep, hk],
        show dedupStep (seen, out) b = (seen, out) by simp [dedupStep, hkey, hk]] at he
      exact ih seen out h e he
    · rw [show dedupStep (seen, out) a = (seen ++ [edgeKey a], out ++ [a]) by
          simp [dedupStep, hk],
        show dedupStep (seen ++ [edgeKey a], out ++ [a]) b
            = (seen ++ [edgeKey a], out ++ [a]) by simp [dedupStep, hkey]] at he
      apply ih _ _ ?_ e he
      intro x hx
      rcases List.mem_append.mp hx with h3 | h3
      · exact h x h3
      · simp only [List.mem_singleton] at h3
        subst h3
        exact hty

/-! ## Lemmas: the per-note link pass -/

theorem processLinks_eq (noteId : String) (tm : String → Option String)
    (nm : String → Option Note) :
    ∀ (links : List Link) (es : List GraphEdge) (d : String → Nat),
    processLinks noteId links tm nm (es, d)
      = (es ++ pairEdges noteId (resolvedPairs noteId tm nm links),
         bumpPairs noteId (resolvedPairs noteId tm nm links) d) := by
  intro links
  induction links with
  | nil =>
    intro es d
    simp [processLinks, pairEdges, resolvedPairs, bumpPairs]
  | cons link rest ih =>
    intro es d
    simp only [processLinks, List.foldl_cons]
    rcases hres : resolveLink link tm nm with _ | t
    · rw [show processLink noteId tm nm (es, d) link = (es, d) by
        simp [processLink, hres]]
      have hfold : List.foldl (processLink noteId tm nm) (es, d) rest
          = processLinks noteId rest tm nm (es, d) := rfl
      rw [hfold, ih es d]
      simp [resolvedPairs, hres]
    · by_cases ht : t = noteId
      · rw [show processLink noteId tm nm (es, d) link = (es, d) by
          simp [processLink, hres, ht]]
        have hfold : List.foldl (processLink noteId tm nm) (es, d) rest
            = processLinks noteId rest tm nm (es, d) := rfl
        rw [hfold, ih es d]
        simp [resolvedPairs, hres, ht]
      · rw [show processLink noteId tm nm (es, d) link
            = (es ++ [⟨noteId, t, link.type⟩, ⟨t, noteId, LinkType.backlink⟩],
               bump (bump d noteId) t) by simp [processLink, hres, ht]]
        have hfold : List.foldl (processLink noteId tm nm)
              (es ++ [⟨noteId, t, link.type⟩, ⟨t, noteId, LinkType.backlink⟩],
               bump (bump d noteId) t) rest
            = processLinks noteId rest tm nm
              (es ++ [⟨noteId, t, link.type⟩, ⟨t, noteId, LinkType.backlink⟩],
               bump (bump d noteId) t) := rfl
        rw [hfold, ih]
        have hrp : resolvedPairs noteId tm nm (link :: rest)
            = (t, link.type) :: resolvedPairs noteId tm nm rest := by
          simp [resolvedPairs, hres, ht]
        rw [hrp, Prod.mk.injEq]
        constructor
        · simp [pairEdges]
        · simp [bumpPairs]

theorem resolvedPairs_mem {noteId : String} {tm : String → Option String}
    {nm : String → Option Note} {links : List Link} {p : String × LinkType}
    (h : p ∈ resolvedPairs noteId tm nm links) :
    p.1 ≠ noteId ∧ ∃ link ∈ links,
      resolveLink link tm nm = some p.1 ∧ link.type = p.2 := by
  unfold resolvedPairs at h
  rcases List.mem_filterMap.mp h with ⟨link, hmem, heq⟩
  rcases hres : resolveLink link tm nm with _ | t
  · rw [hres] at heq
    simp at heq
  · rw [hres] at heq
    change (if t = noteId then none else some (t, link.type)) = some p at heq
    by_cases ht : t = noteId
    · rw [if_pos ht] at heq
      simp at heq
    · rw [if_neg ht] at heq
      injection heq with heq2
      subst heq2
      exact ⟨ht, link, hmem, hres, rfl⟩

theorem extractLinks_type {s : GIState} {c : String} :
    ∀ link ∈ (extractLinksS s c).2, link.type ≠ LinkType.backlink := by
  intro link h
  simp only [extractLinksS] at h
  rcases List.mem_append.mp h with h1 | h1
  · rcases List.mem_filterMap.mp h1 with ⟨raw, _, heq⟩
    by_cases he : (jsTrim raw).data.isEmpty
    · simp [he] at heq
    · simp only [he, if_false] at heq
      injection heq with heq2
      rw [← heq2]
      simp
  · rcases List.mem_filterMap.mp h1 with ⟨raw, _, heq⟩
    by_cases he : ((jsTrim raw).data.isEmpty || jsStartsWith (jsTrim raw) "http://"
        || jsStartsWith (jsTrim raw) "https://")
    · simp only [he, if_true] at heq
      simp at heq
    · simp only [he, if_false] at heq
      injection heq with heq2
      rw [← heq2]
      simp

theorem pairEdges_paired (noteId : String) :
    ∀ (ps : List (String × LinkType)),
    (∀ p ∈ ps, p.1 ≠ noteId ∧ p.2 ≠ LinkType.backlink) →
    Paired (pairEdges noteId ps) := by
  intro ps
  induction ps with
  | nil =>
    intro _
    exact Paired.nil
  | cons p rest ih =>
    intro h
    obtain ⟨h1, h2⟩ := h p (List.mem_cons_self _ _)
    have hshape : pairEdges noteId (p :: rest)
        = ⟨noteId, p.1, p.2⟩ :: ⟨p.1, noteId, LinkType.backlink⟩ :: pairEdges noteId rest := by
      simp [pairEdges]
    rw [hshape]
    refine Paired.cons _ _ _ ?_ h2 (Ne.symm h1) h1
      (ih (fun q hq => h q (List.mem_cons_of_mem _ hq)))
    exact @edgeKey_same_pair ⟨p.1, noteId, LinkType.backlink⟩ ⟨noteId, p.1, p.2⟩ h1
      (Or.inr ⟨rfl, rfl⟩)

theorem indexFold_paired (tm : String → Option String) (nm : String → Option Note) :
    ∀ (ns : List Note) (st : GIState) (es : List GraphEdge) (d : String → Nat),
    Paired es → Paired ((ns.foldl (indexStep tm nm) (st, es, d)).2.1) := by
  intro ns
  induction ns with
  | nil =>
    intro st es d h
    exact h
  | cons note rest ih =>
    intro st es d h
    rw [List.foldl_cons]
    simp only [indexStep]
    rw [processLinks_eq]
    apply ih
    apply paired_append h
    apply pairEdges_paired
    intro p hp
    obtain ⟨hne, link, hmem, _, hty⟩ := resolvedPairs_mem hp
    exact ⟨hne, hty ▸ extractLinks_type link hmem⟩

theorem indexEdges_paired (notes : List Note) (s : GIState) :
    Paired (indexEdgesDegrees notes s).2.1 := by
  unfold indexEdgesDegrees
  exact indexFold_paired _ _ notes s [] _ Paired.nil

/-! ## The deduplication invariant -/

/-- C1: for every input note list (and any state of the shared regexes),
the edge list returned by indexGraph contains no self-loop and no two
entries with the same unordered endpoint pair. -/
theorem indexGraph_dedup_invariant (s : GIState) (notes : List Note) :
    (∀ e ∈ (indexGraphS s notes).2.edges, e.from_ ≠ e.to_) ∧
    (indexGraphS s notes).2.edges.Pairwise (fun e1 e2 => ¬ sameUnorderedPair e1 e2) := by
  have hp := indexEdges_paired notes s
  have hmem : ∀ e ∈ (indexGraphS s notes).2.edges, e ∈ (indexEdgesDegrees notes s).2.1 := by
    intro e he
    have he2 : e ∈ ((indexEdgesDegrees notes s).2.1.foldl dedupStep ([], [])).2 := he
    rcases dedup_fold_mem _ [] [] he2 with h1 | h1
    · simp at h1
    · exact h1
  have hno : ∀ e ∈ (indexGraphS s notes).2.edges, e.from_ ≠ e.to_ :=
    fun e he => paired_no_self hp e (hmem e he)
  refine ⟨hno, ?_⟩
  have hkeys : (indexGraphS s notes).2.edges.Pairwise (fun a b => edgeKey a ≠ edgeKey b) :=
    dedup_fold_keys ((indexEdgesDegrees notes s).2.1) [] [] (by simp) (by simp)
  refine List.Pairwise.imp_of_mem ?_ hkeys
  intro e1 e2 h1 h2 hkey hsame
  exact hkey (edgeKey_same_pair (hno e1 h1) hsame)

/-- C10: every edge surviving deduplication is a forward edge (wikilink
or mdlink, never backlink): each synthetic backlink shares its unordered
key with the forward twin pushed immediately before it, so deduplication
always drops it.  Consequently the backlink-excluding filter of
getBacklinks is vacuous on deduplicated output. -/
theorem edges_no_backlink (s : GIState) (notes : List Note) :
    (∀ e ∈ (indexGraphS s notes).2.edges, e.type ≠ LinkType.backlink) ∧
    ∀ n, getBacklinks n (indexGraphS s notes).2.edges
        = ((indexGraphS s notes).2.edges.filter (fun e => decide (e.to_ = n))).map
            GraphEdge.from_ := by
  have hp := indexEdges_paired notes s
  have h1 : ∀ e ∈ (indexGraphS s notes).2.edges, e.type ≠ LinkType.backlink :=
    fun e he => dedup_fold_no_backlink hp [] [] (by simp) e he
  refine ⟨h1, ?_⟩
  intro n
  unfold getBacklinks
  congr 1
  apply List.filter_congr
  intro e he
  have h2 := h1 e he
  apply decide_eq_decide.mpr
  constructor
  · exact fun h => h.1
  · exact fun h => ⟨h, h2⟩

/-! ## Self-links -/

/-- C7: a link occurrence that resolves to the id of the note containing
it contributes nothing: dropping it from the extracted link list leaves
both the recorded edges and the degree counters unchanged. -/
theorem selfLink_ignored (noteId : String) (tm : String → Option String)
    (nm : String → Option Note) (l1 l2 : List Link) (link : Link)
    (acc : List GraphEdge × (String → Nat))
    (h : resolveLink link tm nm = some noteId) :
    processLinks noteId (l1 ++ link :: l2) tm nm acc
      = processLinks noteId (l1 ++ l2) tm nm acc := by
  unfold processLinks
  rw [List.foldl_append, List.foldl_append, List.foldl_cons]
  congr 1
  simp [processLink, h]

/-- Witness for C7: the note titled A with id a containing the wikilink
of its own title. -/
theorem selfLink_ignored_witness :
    processLinks "a" ([] ++ ⟨"A", LinkType.wikilink⟩ :: []) (buildTitleMap selfLinkNotes)
        (buildNoteMap selfLinkNotes) ([], fun _ => 0)
      = processLinks "a" ([] ++ []) (buildTitleMap selfLinkNotes)
        (buildNoteMap selfLinkNotes) ([], fun _ => 0) :=
  selfLink_ignored "a" (buildTitleMap selfLinkNotes) (buildNoteMap selfLinkNotes)
    [] [] ⟨"A", LinkType.wikilink⟩ ([], fun _ => 0) (by decide)

/-! ## Lemmas: degree sums -/

theorem sum_map_bump : ∀ (ids : List String), ids.Nodup → ∀ (k : String), k ∈ ids →
    ∀ (d : String → Nat), (ids.map (bump d k)).sum = (ids.map d).sum + 1 := by
  intro ids
  induction ids with
  | nil =>
    intro _ k hk
    simp at hk
  | cons x xs ih =>
    intro h k hk d
    rcases List.nodup_cons.mp h with ⟨hnx, hxs⟩
    rcases List.mem_cons.mp hk with h1 | h1
    · subst h1
      have hmp : xs.map (bump d k) = xs.map d := by
        apply List.map_congr_left
        intro y hy
        unfold bump
        rw [if_neg]
        intro he
        exact hnx (he ▸ hy)
      simp only [List.map_cons, List.sum_cons, hmp]
      unfold bump
      rw [if_pos rfl]
      omega
    · have hne : ¬ x = k := by
        rintro rfl
        exact hnx h1
      simp only [List.map_cons, List.sum_cons]
      rw [ih hxs k h1 d]
      unfold bump
      rw [if_neg hne]
      omega

theorem sum_map_bumpPairs (ids : List String) (h : ids.Nodup) (noteId : String)
    (hid : noteId ∈ ids) :
    ∀ (ps : List (String × LinkType)), (∀ p ∈ ps, p.1 ∈ ids) →
    ∀ (d : String → Nat),
    (ids.map (bumpPairs noteId ps d)).sum = (ids.map d).sum + 2 * ps.length := by
  intro ps
  induction ps with
  | nil =>
    intro _ d
    simp [bumpPairs]
  | cons p rest ih =>
    intro hps d
    have hstep : bumpPairs noteId (p :: rest) d
        = bumpPairs noteId rest (bump (bump d noteId) p.1) := by
      simp [bumpPairs]
    rw [hstep, ih (fun q hq => hps q (List.mem_cons_of_mem _ hq)) _]
    rw [sum_map_bump ids h p.1 (hps p (List.mem_cons_self _ _)) _]
    rw [sum_map_bump ids h noteId hid d]
    simp only [List.length_cons]
    omega

theorem buildNoteMap_fold_mem : ∀ (notes : List Note) (m : String → Option Note)
    (k : String),
    ((notes.foldl (fun m n => fun k => if k = n.id then some n else m k) m) k).isSome →
    (m k).isSome ∨ k ∈ notes.map Note.id := by
  intro notes
  induction notes with
  | nil =>
    intro m k h
    exact Or.inl h
  | cons n rest ih =>
    intro m k h
    rw [List.foldl_cons] at h
    rcases ih _ k h with h1 | h1
    · have h2 : ((if k = n.id then some n else m k) : Option Note).isSome := h1
      by_cases hk : k = n.id
      · exact Or.inr (by simp [hk])
      · rw [if_neg hk] at h2
        exact Or.inl h2
    · exact Or.inr (by simp only [List.map_cons]; exact List.mem_cons_of_mem _ h1)

theorem buildTitleMap_fold_mem : ∀ (notes : List Note) (m : String → Option String)
    (k v : String),
    (notes.foldl (fun m n => fun k => if k = jsToLower n.title then some n.id else m k) m) k
        = some v →
    m k = some v ∨ v ∈ notes.map Note.id := by
  intro notes
  induction notes with
  | nil =>
    intro m k v h
    exact Or.inl h
  | cons n rest ih =>
    intro m k v h
    rw [List.foldl_cons] at h
    rcases ih _ k v h with h1 | h1
    · have h2 : (if k = jsToLower n.title then some n.id else m k) = some v := h1
      by_cases hk : k = jsToLower n.title
      · rw [if_pos hk] at h2
        injection h2 with h3
        exact Or.inr (by simp [← h3])
      · rw [if_neg hk] at h2
        exact Or.inl h2
    · exact Or.inr (by simp only [List.map_cons]; exact List.mem_cons_of_mem _ h1)

theorem buildNoteMap_isSome {notes : List Note} {k : String}
    (h : (buildNoteMap notes k).isSome) : k ∈ notes.map Note.id := by
  unfold buildNoteMap at h
  rcases buildNoteMap_fold_mem notes (fun _ => none) k h with h1 | h1
  · simp at h1
  · exact h1

theorem buildTitleMap_some {notes : List Note} {k v : String}
    (h : buildTitleMap notes k = some v) : v ∈ notes.map Note.id := by
  unfold buildTitleMap at h
  rcases buildTitleMap_fold_mem notes (fun _ => none) k v h with h1 | h1
  · simp at h1
  · exact h1

theorem resolveLink_mem {notes : List Note} {link : Link} {t : String}
    (h : resolveLink link (buildTitleMap notes) (buildNoteMap notes) = some t) :
    t ∈ notes.map Note.id := by
  unfold resolveLink at h
  by_cases h1 : (buildNoteMap notes link.target).isSome
  · rw [if_pos h1] at h
    injection h with h2
    subst h2
    exact buildNoteMap_isSome h1
  · rw [if_neg h1] at h
    split at h
    · injection h with h3
      subst h3
      exact buildTitleMap_some (by assumption)
    · split at h
      · injection h with h3
        subst h3
        exact buildTitleMap_some (by assumption)
      · split at h
        · injection h with h3
          subst h3
          exact buildTitleMap_some (by assumption)
        · exact absurd h (by simp)

theorem indexFold_sum (tm : String → Option String) (nm : String → Option Note)
    (ids : List String) (hids : ids.Nodup)
    (hres : ∀ (link : Link) (t : String), resolveLink link tm nm = some t → t ∈ ids) :
    ∀ (ns : List Note), (∀ n ∈ ns, n.id ∈ ids) →
    ∀ (st : GIState) (es : List GraphEdge) (d : String → Nat) (c : Nat),
    (ids.map ((ns.foldl (indexStep tm nm) (st, es, d)).2.2)).sum + 2 * c
      = (ids.map d).sum + 2 * ((ns.foldl (countStep tm nm) (st, c)).2) := by
  intro ns
  induction ns with
  | nil =>
    intro _ st es d c
    simp
  | cons note rest ih =>
    intro hns st es d c
    rw [List.foldl_cons, List.foldl_cons]
    simp only [indexStep, countStep]
    rw [processLinks_eq]
    have hmem : ∀ p ∈ resolvedPairs note.id tm nm (extractLinksS st note.content).2,
        p.1 ∈ ids := by
      intro p hp
      obtain ⟨_, link, _, hr, _⟩ := resolvedPairs_mem hp
      exact hres link p.1 hr
    have hid : note.id ∈ ids := hns note (List.mem_cons_self _ _)
    have hrec := ih (fun n hn => hns n (List.mem_cons_of_mem _ hn))
      (extractLinksS st note.content).1
      (es ++ pairEdges note.id (resolvedPairs note.id tm nm (extractLinksS st note.content).2))
      (bumpPairs note.id (resolvedPairs note.id tm nm (extractLinksS st note.content).2) d)
      (c + (resolvedPairs note.id tm nm (extractLinksS st note.content).2).length)
    rw [sum_map_bumpPairs ids hids note.id hid _ hmem d] at hrec
    dsimp only at hrec ⊢
    omega

/-! ## The degree sum -/

/-- C2, amended with the hypothesis that note ids are pairwise distinct:
the sum over the returned nodes of their degrees equals twice the number
of resolved non-self link occurrences (independently of how many edges
survive deduplication). -/
theorem indexGraph_degree_sum (s : GIState) (notes : List Note)
    (h : (notes.map Note.id).Nodup) :
    ((indexGraphS s notes).2.nodes.map GraphNode.degree).sum
      = 2 * resolvedLinkCount notes s := by
  have hmain := indexFold_sum (buildTitleMap notes) (buildNoteMap notes)
    (notes.map Note.id) h (fun link t ht => resolveLink_mem ht)
    notes (fun n hn => List.mem_map_of_mem _ hn) s [] (fun _ => 0) 0
  rw [show notes.foldl (indexStep (buildTitleMap notes) (buildNoteMap notes))
      (s, [], fun _ => 0) = indexEdgesDegrees notes s from rfl] at hmain
  have hnodes : (indexGraphS s notes).2.nodes.map GraphNode.degree
      = (notes.map Note.id).map ((indexEdgesDegrees notes s).2.2) := by
    show (notes.map (buildNode (indexEdgesDegrees notes s).2.2)).map GraphNode.degree = _
    rw [List.map_map, List.map_map]
    apply List.map_congr_left
    intro n _
    rfl
  rw [hnodes]
  have hz : ((notes.map Note.id).map (fun _ => (0 : Nat))).sum = 0 := by
    generalize notes.map Note.id = ids
    induction ids with
    | nil => rfl
    | cons a l ih => simp [ih]
  rw [show resolvedLinkCount notes s
      = (notes.foldl (countStep (buildTitleMap notes) (buildNoteMap notes)) (s, 0)).2
      from rfl]
  omega

/-- C2 counterexample: with two notes sharing one id, the node for that id
is emitted twice and the degree sum is 3 while twice the resolved link
count is 2; the unrestricted claim fails. -/
theorem degree_sum_counterexample :
    ¬ (((indexGraphS initialState dupIdNotes).2.nodes.map GraphNode.degree).sum
        = 2 * resolvedLinkCount dupIdNotes initialState) := by decide

/-- Witness for C2 on the end-to-end scenario of the specification. -/
theorem indexGraph_degree_sum_witness :
    ((indexGraphS initialState endToEndNotes).2.nodes.map GraphNode.degree).sum
      = 2 * resolvedLinkCount endToEndNotes initialState :=
  indexGraph_degree_sum initialState endToEndNotes (by decide)

/-! ## Lemmas: every exec loop leaves lastIndex at 0

A successful exec strictly advances the position and stays within the
content, so the loop always reaches the failing exec that resets
lastIndex to 0 before the fuel (content length plus one) runs out. -/

theorem wikiClose_len : ∀ {cap r c rest : List Char},
    wikiClose cap r = some (c, rest) → rest.length < r.length := by
  intro cap r c rest h
  unfold wikiClose at h
  split at h
  · simp only [Option.some.injEq, Prod.mk.injEq] at h
    obtain ⟨_, h2⟩ := h
    subst h2
    simp only [List.length_cons]
    omega
  · exact absurd h (by simp)

theorem wikiAlias_len : ∀ {cap r c rest : List Char},
    wikiAlias cap r = some (c, rest) → rest.length < r.length := by
  intro cap r c rest h
  unfold wikiAlias at h
  split at h
  · rename_i r2
    split at h
    · exact absurd h (by simp)
    · have h2 := wikiClose_len h
      have h3 := dropWhile_len_le (fun c => c != ']') r2
      simp only [List.length_cons]
      omega
  · exact wikiClose_len h

theorem wikiSection_len : ∀ {cap r c rest : List Char},
    wikiSection cap r = some (c, rest) → rest.length < r.length := by
  intro cap r c rest h
  unfold wikiSection at h
  split at h
  · rename_i r2
    split at h
    · exact absurd h (by simp)
    · have h2 := wikiAlias_len h
      have h3 := dropWhile_len_le isWikiSectionChar r2
      simp only [List.length_cons]
      omega
  · exact wikiAlias_len h

theorem tryWikiAt_len : ∀ {l c rest : List Char},
    tryWikiAt l = some (c, rest) → rest.length < l.length := by
  intro l c rest h
  unfold tryWikiAt at h
  split at h
  · rename_i r
    split at h
    · exact absurd h (by simp)
    · have h2 := wikiSection_len h
      have h3 := dropWhile_len_le isWikiTargetChar r
      simp only [List.length_cons]
      omega
  · exact absurd h (by simp)

theorem mdParen_len : ∀ {l c rest : List Char},
    mdParen l = some (c, rest) → rest.length < l.length := by
  intro l c rest h
  unfold mdParen at h
  split at h
  · rename_i r
    split at h
    · exact absurd h (by simp)
    · split at h
      · rename_i rest0 heq
        simp only [Option.some.injEq, Prod.mk.injEq] at h
        obtain ⟨_, h2⟩ := h
        subst h2
        have hlen := dropWhile_len_le (fun c => c != ')') r
        rw [heq] at hlen
        simp only [List.length_cons] at hlen ⊢
        omega
      · exact absurd h (by simp)
  · exact absurd h (by simp)

theorem mdScan_len : ∀ {l c rest : List Char},
    mdScan l = some (c, rest) → rest.length < l.length := by
  intro l
  induction l with
  | nil =>
    intro c rest h
    exact absurd h (by simp [mdScan])
  | cons x xs ih =>
    intro c rest h
    unfold mdScan at h
    split at h
    · split at h
      · rename_i r heq
        injection h with h1
        subst h1
        have := mdParen_len heq
        simp only [List.length_cons]
        omega
      · have := ih h
        simp only [List.length_cons]
        omega
    · split at h
      · exact absurd h (by simp)
      · have := ih h
        simp only [List.length_cons]
        omega

theorem tryMdAt_len : ∀ {l c rest : List Char},
    tryMdAt l = some (c, rest) → rest.length < l.length := by
  intro l c rest h
  unfold tryMdAt at h
  split at h
  · have := mdScan_len h
    simp only [List.length_cons]
    omega
  · exact absurd h (by simp)

theorem searchFrom_bounds (tryAt : List Char → Option (List Char × List Char))
    (hTry : ∀ {l cap rest : List Char}, tryAt l = some (cap, rest) → rest.length < l.length) :
    ∀ (l : List Char) (p : Nat) {t : String} {n : Nat},
    searchFrom tryAt l p = some (t, n) → p < n ∧ n ≤ p + l.length := by
  intro l
  induction l with
  | nil =>
    intro p t n h
    exact absurd h (by simp [searchFrom])
  | cons x xs ih =>
    intro p t n h
    unfold searchFrom at h
    split at h
    · rename_i cap after heq
      simp only [Option.some.injEq, Prod.mk.injEq, List.length_cons] at h
      obtain ⟨_, h2⟩ := h
      have h3 := hTry heq
      simp only [List.length_cons] at h3 ⊢
      omega
    · obtain ⟨ha, hb⟩ := ih (p + 1) h
      simp only [List.length_cons]
      omega

theorem rexec_bounds (tryAt : List Char → Option (List Char × List Char))
    (hTry : ∀ {l cap rest : List Char}, tryAt l = some (cap, rest) → rest.length < l.length)
    (cs : List Char) (i : Nat) {t : String} {n : Nat}
    (h : rexec tryAt cs i = some (t, n)) : i < n ∧ n ≤ cs.length := by
  unfold rexec at h
  have hb := searchFrom_bounds tryAt hTry (cs.drop i) i h
  rcases le_or_lt i cs.length with hle | hgt
  · rw [List.length_drop] at hb
    omega
  · rw [List.drop_eq_nil_of_le (le_of_lt hgt)] at h
    exact absurd h (by simp [searchFrom])

theorem regexLoop_resets (tryAt : List Char → Option (List Char × List Char))
    (hTry : ∀ {l cap rest : List Char}, tryAt l = some (cap, rest) → rest.length < l.length)
    (cs : List Char) :
    ∀ (fuel li : Nat), 1 ≤ fuel → cs.length + 1 ≤ fuel + li →
    (regexLoop tryAt cs fuel li).2 = 0 := by
  intro fuel
  induction fuel with
  | zero =>
    intro li h1 _
    exact absurd h1 (by omega)
  | succ fuel ih =>
    intro li _ h2
    unfold regexLoop
    split
    · rfl
    · rename_i t next heq
      have hb := rexec_bounds tryAt hTry cs li heq
      dsimp only
      apply ih
      · omega
      · omega

theorem extractLinksS_state (s : GIState) (c : String) :
    (extractLinksS s c).1 = initialState := by
  have h1 := regexLoop_resets tryWikiAt (fun h => tryWikiAt_len h) c.data
    (c.data.length + 1) s.wLast (by omega) (by omega)
  have h2 := regexLoop_resets tryMdAt (fun h => tryMdAt_len h) c.data
    (c.data.length + 1) 0 (by omega) (by omega)
  show (⟨(regexLoop tryWikiAt c.data (c.data.length + 1) s.wLast).2,
         (regexLoop tryMdAt c.data (c.data.length + 1) 0).2⟩ : GIState) = initialState
  rw [h1, h2]
  rfl

theorem indexFold_state (tm : String → Option String) (nm : String → Option Note) :
    ∀ (ns : List Note) (es : List GraphEdge) (d : String → Nat),
    (ns.foldl (indexStep tm nm) (initialState, es, d)).1 = initialState := by
  intro ns
  induction ns with
  | nil =>
    intro es d
    rfl
  | cons note rest ih =>
    intro es d
    rw [List.foldl_cons]
    have h1 : (indexStep tm nm (initialState, es, d) note).1 = initialState :=
      extractLinksS_state initialState note.content
    have hstep : indexStep tm nm (initialState, es, d) note
        = (initialState,
           (indexStep tm nm (initialState, es, d) note).2.1,
           (indexStep tm nm (initialState, es, d) note).2.2) := by
      exact Prod.ext h1 rfl
    rw [hstep]
    exact ih _ _

/-! ## Idempotence -/

/-- C9: indexGraph is a pure function of the note list: a first call from
a fresh indexer leaves the shared regex state back at its initial value
(the exec loops always end on a failed exec, which resets lastIndex), so
an immediate second call on the unchanged list returns the identical
GraphData, nodes, degrees and edges included. -/
theorem indexGraph_idempotent (notes : List Note) :
    (indexGraphS initialState notes).1 = initialState ∧
    (indexGraphS (indexGraphS initialState notes).1 notes).2
      = (indexGraphS initialState notes).2 := by
  have h1 : (indexGraphS initialState notes).1 = initialState := by
    show (indexEdgesDegrees notes initialState).1 = initialState
    unfold indexEdgesDegrees
    exact indexFold_state _ _ notes [] _
  exact ⟨h1, by rw [h1]⟩

/-! ## Lemmas: breadth-first search -/

theorem pushFold_mem : ∀ (ns : List String) (path : List String)
    (q : List QueueEntry) (v : List String) {e : QueueEntry},
    e ∈ (ns.foldl (pushStep path) (q, v)).1 →
    e ∈ q ∨ ∃ n ∈ ns, e = ⟨n, path ++ [n]⟩ := by
  intro ns path
  induction ns with
  | nil =>
    intro q v e h
    exact Or.inl h
  | cons n rest ih =>
    intro q v e h
    rw [List.foldl_cons] at h
    by_cases hv : n ∈ v
    · rw [show pushStep path (q, v) n = (q, v) by simp [pushStep, hv]] at h
      rcases ih _ _ h with h1 | ⟨m, hm, he⟩
      · exact Or.inl h1
      · exact Or.inr ⟨m, List.mem_cons_of_mem _ hm, he⟩
    · rw [show pushStep path (q, v) n = (q ++ [⟨n, path ++ [n]⟩], v ++ [n]) by
        simp [pushStep, hv]] at h
      rcases ih _ _ h with h1 | ⟨m, hm, he⟩
      · rcases List.mem_append.mp h1 with h2 | h2
        · exact Or.inl h2
        · simp only [List.mem_singleton] at h2
          exact Or.inr ⟨n, List.mem_cons_self _ _, h2⟩
      · exact Or.inr ⟨m, List.mem_cons_of_mem _ hm, he⟩

theorem bfsLoop_sound (adj : String → List String) (toId fromId : String) :
    ∀ (fuel : Nat) (queue : List QueueEntry) (visited : List String) (p : List String),
    (∀ e ∈ queue, entryOk adj fromId e) →
    bfsLoop adj toId fuel queue visited = some p →
    p.head? = some fromId ∧ p.getLast? = some toId ∧
      p.Chain' (fun a b => b ∈ adj a) ∧
      Relation.ReflTransGen (fun a b => b ∈ adj a) fromId toId := by
  intro fuel
  induction fuel with
  | zero =>
    intro queue visited p hq h
    exact absurd h (by simp [bfsLoop])
  | succ fuel ih =>
    intro queue visited p hq h
    cases queue with
    | nil => exact absurd h (by simp [bfsLoop])
    | cons current rest =>
      unfold bfsLoop at h
      by_cases hfound : current.id = toId
      · rw [if_pos hfound] at h
        injection h with h1
        subst h1
        obtain ⟨hh, hl, hc, hr⟩ := hq current (List.mem_cons_self _ _)
        exact ⟨hh, hfound ▸ hl, hc, hfound ▸ hr⟩
      · rw [if_neg hfound] at h
        dsimp only at h
        refine ih _ _ p ?_ h
        intro e he
        rcases pushFold_mem _ _ _ _ he with h1 | ⟨n, hn, he2⟩
        · exact hq e (List.mem_cons_of_mem _ h1)
        · subst he2
          obtain ⟨hh, hl, hc, hr⟩ := hq current (List.mem_cons_self _ _)
          have hne : current.path ≠ [] := by
            intro h0
            rw [h0] at hl
            simp at hl
          refine ⟨?_, ?_, ?_, ?_⟩
          · cases hcp : current.path with
            | nil => exact absurd hcp hne
            | cons a l =>
              rw [hcp] at hh
              simp only [List.cons_append, List.head?_cons] at hh ⊢
              exact hh
          · exact List.getLast?_concat _
          · refine List.Chain'.append hc (List.chain'_singleton n) ?_
            intro a ha b hb
            simp only [List.head?_cons, Option.mem_def, Option.some.injEq] at hb
            rw [hl] at ha
            simp only [Option.mem_def, Option.some.injEq] at ha
            rw [← ha, ← hb]
            exact hn
          · exact Relation.ReflTransGen.tail hr hn

/-! ## Shortest path -/

/-- C8: shortestPath performs an unweighted breadth-first search over the
directed adjacency of the edge list.  From a node to itself it returns the
singleton path; on the chain with edges A to B and B to C it returns the
three-node path; every returned path runs from the start to the target
inclusive along the adjacency; and whenever the target is unreachable it
returns none. -/
theorem shortestPath_correct :
    (∀ (a : String) (es : List GraphEdge), shortestPath a a es = some [a]) ∧
    shortestPath "A" "C" chainEdges = some ["A", "B", "C"] ∧
    (∀ (f t : String) (es : List GraphEdge) (p : List String),
      shortestPath f t es = some p →
      p.head? = some f ∧ p.getLast? = some t ∧
        p.Chain' (fun a b => b ∈ buildAdjacency es a)) ∧
    (∀ (f t : String) (es : List GraphEdge),
      ¬ Relation.ReflTransGen (fun a b => b ∈ buildAdjacency es a) f t →
      shortestPath f t es = none) := by
  have hsound : ∀ (f t : String) (es : List GraphEdge) (p : List String),
      shortestPath f t es = some p →
      p.head? = some f ∧ p.getLast? = some t ∧
        p.Chain' (fun a b => b ∈ buildAdjacency es a) ∧
        Relation.ReflTransGen (fun a b => b ∈ buildAdjacency es a) f t := by
    intro f t es p h
    refine bfsLoop_sound (buildAdjacency es) t f (es.length + 2) [⟨f, [f]⟩] [f] p ?_ h
    intro e he
    simp only [List.mem_singleton] at he
    subst he
    exact ⟨rfl, rfl, List.chain'_singleton f, Relation.ReflTransGen.refl⟩
  refine ⟨?_, by decide, ?_, ?_⟩
  · intro a es
    show bfsLoop (buildAdjacency es) a (es.length + 1 + 1) [⟨a, [a]⟩] [a] = some [a]
    unfold bfsLoop
    rw [if_pos rfl]
  · intro f t es p h
    obtain ⟨h1, h2, h3, _⟩ := hsound f t es p h
    exact ⟨h1, h2, h3⟩
  · intro f t es hun
    cases hsp : shortestPath f t es with
    | none => rfl
    | some p => exact absurd (hsound f t es p hsp).2.2.2 hun

/-- Witness for C8: in the empty edge list, D is unreachable from A, and
the search returns none. -/
theorem shortestPath_correct_witness : shortestPath "A" "D" [] = none :=
  shortestPath_correct.2.2.2 "A" "D" [] (by
    intro h
    rcases Relation.ReflTransGen.cases_head h with h1 | ⟨c, hc, _⟩
    · exact absurd h1 (by decide)
    · simp [buildAdjacency] at hc)

/-! ## Link-resolution rule order -/

/-- C3 counterexample: with a note whose title is the empty string, the
target x-slash has an empty last segment; the claim wording of rule 4
(the segment after the last slash) resolves it to that note, while the
source falls back to the whole cleaned target (the popped empty segment
is falsy) and resolves to nothing. -/
theorem resolveLink_basename_counterexample :
    resolveLink ⟨"x/", LinkType.wikilink⟩ (buildTitleMap emptyTitleNotes)
        (buildNoteMap emptyTitleNotes) = none ∧
    resolveLinkClaim ⟨"x/", LinkType.wikilink⟩ (buildTitleMap emptyTitleNotes)
        (buildNoteMap emptyTitleNotes) = some "n1" :=
  ⟨by decide, by decide⟩

/-- C3, amended in rule 4 only: resolveLink tries, in order, id match,
lowercased title match, title match of the cleaned target, title match of
the basename of the cleaned target where an empty last segment falls back
to the whole cleaned target; the first rule that matches wins, and an
unresolved link produces no edge and no degree change. -/
theorem resolveLink_rule_order :
    (∀ (link : Link) (tm : String → Option String) (nm : String → Option Note),
      resolveLink link tm nm = resolveLinkAmended link tm nm) ∧
    (∀ (noteId : String) (tm : String → Option String) (nm : String → Option Note)
      (acc : List GraphEdge × (String → Nat)) (link : Link),
      resolveLink link tm nm = none → processLink noteId tm nm acc link = acc) := by
  constructor
  · intro link tm nm
    unfold resolveLink resolveLinkAmended ruleIdMatch ruleTitleMatch
    cases h2 : tm (jsToLower link.target) with
    | some i =>
      by_cases h1 : (nm link.target).isSome
      · simp [h1]
      · simp [h1, h2]
    | none =>
      by_cases h1 : (nm link.target).isSome
      · simp [h1]
      · cases h3 : tm (jsToLower (cleanedTarget link.target)) with
        | some i => simp [h1, h2, h3]
        | none =>
          cases h4 : tm (jsToLower (basenameOf (cleanedTarget link.target))) with
          | some i => simp [h1, h2, h3, h4]
          | none => simp [h1, h2, h3, h4]
  · intro noteId tm nm acc link h
    simp [processLink, h]

/-- Witness for C3: an unresolvable wikilink leaves the accumulator of
the note pass unchanged. -/
theorem resolveLink_rule_order_witness :
    processLink "1" (buildTitleMap endToEndNotes) (buildNoteMap endToEndNotes)
      ([], fun _ => 0) ⟨"Nonexistent Note", LinkType.wikilink⟩ = ([], fun _ => 0) :=
  resolveLink_rule_order.2 "1" (buildTitleMap endToEndNotes) (buildNoteMap endToEndNotes)
    ([], fun _ => 0) ⟨"Nonexistent Note", LinkType.wikilink⟩ (by decide)

/-! ## Node classification -/

/-- C4: the claim (and the in-code legend) classify a degree of 2 as
main, but the loadGraph mapping of GraphView requires degree at least 3
for main and classifies degree 2 as secondary: the code contradicts its
own legend at the failing input degree 2. -/
theorem classification_degree_two_bug :
    classifyNode (some 2) = "secondary" ∧ claimClassification 2 = "main" ∧
    classifyNode (some 2) ≠ claimClassification 2 := by decide

/-! ## The repulsion distance -/

theorem euclid_cex : euclidDist cexNodeA cexNodeB = 1 / 2 := by
  show Real.sqrt ((1 / 2 - 0) * (1 / 2 - 0) + (0 - 0) * (0 - 0)) = 1 / 2
  have h : ((1 : ℝ) / 2 - 0) * ((1 : ℝ) / 2 - 0) + ((0 : ℝ) - 0) * ((0 : ℝ) - 0)
      = (1 / 2) ^ 2 := by ring
  rw [h, Real.sqrt_sq (by norm_num : (0 : ℝ) ≤ 1 / 2)]

/-- C5 counterexample: the two concrete nodes are at distance one half,
strictly between 0 and 1, and the distance actually divided by is one
half, not 1: the or-else replaces only an exactly zero square root, it
does not floor small distances at 1. -/
theorem repulsion_floor_counterexample :
    0 < euclidDist cexNodeA cexNodeB ∧ euclidDist cexNodeA cexNodeB < 1 ∧
    usedDistance cexNodeA cexNodeB ≠ 1 := by
  have h := euclid_cex
  refine ⟨by rw [h]; norm_num, by rw [h]; norm_num, ?_⟩
  unfold usedDistance
  rw [if_neg (by rw [h]; norm_num : ¬ euclidDist cexNodeA cexNodeB = 0), h]
  norm_num

/-- C5, amended: in the repulsion step the value 1 is substituted for the
distance exactly when the computed Euclidean distance is 0; for any
nonzero distance, including values strictly below 1, the actual distance
itself is used, and the force magnitude is repulsion divided by the
square of that used distance. -/
theorem repulsion_distance_amended (p : SimParams) (a b : SimNode) :
    (euclidDist a b = 0 → usedDistance a b = 1 ∧
      repulsionForce p a b = p.repulsion / (1 * 1)) ∧
    (euclidDist a b ≠ 0 → usedDistance a b = euclidDist a b ∧
      repulsionForce p a b = p.repulsion / (euclidDist a b * euclidDist a b)) := by
  constructor
  · intro h
    have hu : usedDistance a b = 1 := by
      unfold usedDistance
      rw [if_pos h]
    refine ⟨hu, ?_⟩
    unfold repulsionForce
    rw [hu]
  · intro h
    have hu : usedDistance a b = euclidDist a b := by
      unfold usedDistance
      rw [if_neg h]
    refine ⟨hu, ?_⟩
    unfold repulsionForce
    rw [hu]

/-- Witness for C5 at the concrete pair half a unit apart. -/
theorem repulsion_distance_amended_witness :
    usedDistance cexNodeA cexNodeB = euclidDist cexNodeA cexNodeB ∧
    repulsionForce defaultParams cexNodeA cexNodeB
      = defaultParams.repulsion
        / (euclidDist cexNodeA cexNodeB * euclidDist cexNodeA cexNodeB) :=
  (repulsion_distance_amended defaultParams cexNodeA cexNodeB).2
    (by rw [euclid_cex]; norm_num)

/-! ## Worker init with malformed payload -/

/-- C6 (the code contradicts the specification here): an init message
whose payload is missing the nodes field throws a TypeError inside the
message handler at the data.nodes.forEach access, and a payload with
nodes but no edges field throws at the edges.forEach access of the first
synchronous simulation tick; neither is the specified no-op
initialisation. -/
theorem init_missing_payload_throws (st : WorkerState) (rand : Nat → ℝ) :
    handleMessage st rand (WorkerMsg.init ⟨none, none, none⟩)
      = Except.error "TypeError: data.nodes is undefined" ∧
    handleMessage { st with isRunning := false } rand
        (WorkerMsg.init ⟨some [], none, none⟩)
      = Except.error "TypeError: edges is undefined" := by
  constructor
  · rfl
  · simp [handleMessage, initGraph, startSimulationE, simulationStepE,
      applyAttractionE, initNodes]

end Jemanote
